import Mathlib

/-!
Shallow embedding of the hook-resolution and batched-execution core of
`pre-commit-rs` (src/hook.rs, src/languages/docker_image.rs,
src/languages/mod.rs), together with theorems checking the specification's
claims about it.  Rust `HashMap`s are modelled as association lists with
unique keys; `async` control flow is flattened to sequential evaluation in
configuration order; fallible or panicking code returns `Option`/`Except`.
-/

namespace Precommit

/-- Lifecycle stage names (`config::Stage`); the concrete set of stage names is
irrelevant to the properties below, so stages are plain strings. -/
abbrev Stage := String

/-- Toolchain languages (`config::Language`).  Only variants the source
mentions are listed; the properties below do not depend on the exact set. -/
inductive Language where
  | python
  | node
  | system
  | dockerImage
  deriving DecidableEq, Repr

/-- `DEFAULT_VERSION` from src/languages/mod.rs. -/
def DEFAULT_VERSION : String := "default"

/-- Modelled from the spec: the per-language `default_version()`
implementations (src/languages/python.rs etc.) are not under src/; the spec
says the language-version constraint uses a "default" sentinel when unset,
matching the `DEFAULT_VERSION` constant of src/languages/mod.rs.  The claims
below do not depend on the returned string. -/
def Language.default_version (_l : Language) : String := DEFAULT_VERSION

/-- `ManifestHook` (crate::config): the canonical hook definition shipped in a
repo's manifest.  The field list follows the spec's data model; each field's
type is the one forced by `Hook::update` and `Hook::fill` in src/hook.rs. -/
structure ManifestHook where
  id : String
  name : String
  entry : String
  language : Language
  language_version : Option String
  files : Option String
  exclude : Option String
  types : Option (List String)
  types_or : Option (List String)
  exclude_types : Option (List String)
  args : Option (List String)
  stages : Option (List Stage)
  additional_dependencies : Option (List String)
  always_run : Option Bool
  verbose : Option Bool
  log_file : Option String
  «alias» : Option String
  deriving DecidableEq, Repr

/-- `ConfigRemoteHook` (crate::config): a project-level override for one hook
of a remote repo; every overridable field is optional, plus the identifier
used for the manifest lookup. -/
structure ConfigRemoteHook where
  id : String
  name : Option String
  language_version : Option String
  files : Option String
  exclude : Option String
  types : Option (List String)
  types_or : Option (List String)
  exclude_types : Option (List String)
  args : Option (List String)
  stages : Option (List Stage)
  additional_dependencies : Option (List String)
  always_run : Option Bool
  verbose : Option Bool
  log_file : Option String
  «alias» : Option String
  deriving DecidableEq, Repr

/-- `ConfigLocalHook`: per the spec, a local/inline hook record *is* a full
hook definition. -/
abbrev ConfigLocalHook := ManifestHook

/-- `ConfigRemoteRepo` (crate::config): a remote repo entry of the project
configuration. -/
structure ConfigRemoteRepo where
  repo : String
  rev : String
  hooks : List ConfigRemoteHook
  deriving DecidableEq, Repr

/-- `ConfigLocalRepo` (crate::config): a local repo entry with inline hooks. -/
structure ConfigLocalRepo where
  hooks : List ConfigLocalHook
  deriving DecidableEq, Repr

/-- `ConfigRepo` (crate::config). -/
inductive ConfigRepo where
  | remote (r : ConfigRemoteRepo)
  | local' (r : ConfigLocalRepo)
  | meta
  deriving DecidableEq, Repr

/-- `ConfigWire` (crate::config): the parsed project configuration; only the
fields the embedded code reads are modelled.  The per-language default-version
map is an association list with unique keys. -/
structure ConfigWire where
  repos : List ConfigRepo
  default_language_version : Option (List (Language × String))
  default_stages : Option (List Stage)
  deriving DecidableEq, Repr

/-- `RemoteRepo` (src/hook.rs): stored path, source url, revision, and the
hook map (HashMap modelled as an association list with unique keys). -/
structure RemoteRepo where
  path : String
  url : String
  rev : String
  hooks : List (String × ManifestHook)
  deriving DecidableEq, Repr

/-- `LocalRepo` (src/hook.rs). -/
structure LocalRepo where
  path : String
  hooks : List (String × ManifestHook)
  deriving DecidableEq, Repr

/-- `Repo` (src/hook.rs). -/
inductive Repo where
  | remote (r : RemoteRepo)
  | local' (r : LocalRepo)
  | meta
  deriving DecidableEq, Repr

/-- One insertion into the hook map: the model of one step of
`.map(|hook| (hook.id.clone(), hook)).collect::<HashMap<_, _>>()` — inserting
a key that is already present replaces the stored value (last write wins),
otherwise a new entry is added. -/
def hookMapInsert (m : List (String × ManifestHook)) (h : ManifestHook) :
    List (String × ManifestHook) :=
  if m.any (fun p => p.1 == h.id) then
    m.map (fun p => if p.1 == h.id then (p.1, h) else p)
  else
    m ++ [(h.id, h)]

/-- The hook map built by `Repo::remote` / `Repo::local` from the manifest's
hook list. -/
def buildHookMap (hooks : List ManifestHook) : List (String × ManifestHook) :=
  hooks.foldl hookMapInsert []

/-- `Repo::get_hook` (src/hook.rs lines 85-91): pure lookup in the variant's
hook map; a Meta repo has no hooks. -/
def Repo.get_hook : Repo → String → Option ManifestHook
  | .remote r, id => r.hooks.lookup id
  | .local' r, id => r.hooks.lookup id
  | .meta, _ => none

/-- The `Display` implementation for `Repo` (src/hook.rs lines 94-102). -/
def Repo.display : Repo → String
  | .remote r => r.url ++ "@" ++ r.rev
  | .local' _ => "local"
  | .meta => "meta"

/-- `Repo::meta()` (src/hook.rs lines 81-83).  The source body is literally
`todo!()`, which panics at runtime; panicking/diverging code is modelled as
the absence of a result. -/
def Repo.metaImpl : Option Repo := none

/-- `Hook` is a transparent newtype over `ManifestHook`
(`struct Hook(ManifestHook)` with a `Deref` impl); modelled as the same
type. -/
abbrev Hook := ManifestHook

/-- `Hook::update` (src/hook.rs lines 206-248): the project-level override is
applied to the effective hook.  The source is a sequence of per-field
conditional assignments to pairwise distinct fields of `self.0`; the record
below states the simultaneous effect, one line per source assignment.
`alias` is assigned unconditionally; every other field only when the override
sets it. -/
def Hook.update (self : Hook) (repo_hook : ConfigRemoteHook) : Hook where
  id := self.id
  name :=
    match repo_hook.name with
    | some name => name
    | none => self.name
  entry := self.entry
  language := self.language
  language_version :=
    if repo_hook.language_version.isSome then repo_hook.language_version
    else self.language_version
  files := if repo_hook.files.isSome then repo_hook.files else self.files
  exclude := if repo_hook.exclude.isSome then repo_hook.exclude else self.exclude
  types := if repo_hook.types.isSome then repo_hook.types else self.types
  types_or := if repo_hook.types_or.isSome then repo_hook.types_or else self.types_or
  exclude_types :=
    if repo_hook.exclude_types.isSome then repo_hook.exclude_types
    else self.exclude_types
  args := if repo_hook.args.isSome then repo_hook.args else self.args
  stages := if repo_hook.stages.isSome then repo_hook.stages else self.stages
  additional_dependencies :=
    if repo_hook.additional_dependencies.isSome then
      repo_hook.additional_dependencies
    else self.additional_dependencies
  always_run :=
    if repo_hook.always_run.isSome then repo_hook.always_run else self.always_run
  verbose := if repo_hook.verbose.isSome then repo_hook.verbose else self.verbose
  log_file :=
    if repo_hook.log_file.isSome then repo_hook.log_file else self.log_file
  «alias» := repo_hook.«alias»

/-- `Hook::fill` (src/hook.rs lines 250-267): fill still-unset fields from the
project-wide defaults. -/
def Hook.fill (self : Hook) (config : ConfigWire) : Hook :=
  let language := self.language
  let self :=
    if self.language_version.isNone then
      { self with
        language_version :=
          config.default_language_version.bind (fun v => v.lookup language) }
    else self
  let self :=
    if self.language_version.isNone then
      { self with language_version := some language.default_version }
    else self
  let self :=
    if self.stages.isNone then { self with stages := config.default_stages }
    else self
  self

/-- An optional field's conditional-overwrite step, as written in
`Hook::update`, is exactly `Option.or`. -/
theorem isSome_ite_eq_or {α : Type} (x y : Option α) :
    (if x.isSome then x else y) = x.or y := by
  cases x <;> rfl

/-- A base hook whose manifest sets an alias, used to exercise the merge. -/
def aliasBaseHook : ManifestHook where
  id := "lint"
  name := "Lint"
  entry := "lint"
  language := .python
  language_version := none
  files := none
  exclude := none
  types := none
  types_or := none
  exclude_types := none
  args := none
  stages := none
  additional_dependencies := none
  always_run := none
  verbose := none
  log_file := none
  «alias» := some "a"

/-- A project-level override that sets no field at all. -/
def emptyOverride : ConfigRemoteHook where
  id := "lint"
  name := none
  language_version := none
  files := none
  exclude := none
  types := none
  types_or := none
  exclude_types := none
  args := none
  stages := none
  additional_dependencies := none
  always_run := none
  verbose := none
  log_file := none
  «alias» := none

/-- Claim C1 (counterexample): the alias field is not merged by overlay.  With
a base hook whose alias is set and an override that leaves alias absent,
`Hook::update` does not keep the base's alias — it overwrites it with the
override's absent value. -/
theorem update_alias_not_overlay :
    emptyOverride.«alias» = none ∧ aliasBaseHook.«alias» = some "a" ∧
      (Hook.update aliasBaseHook emptyOverride).«alias» ≠ aliasBaseHook.«alias» := by
  refine ⟨rfl, rfl, ?_⟩
  intro h
  simp [Hook.update, aliasBaseHook, emptyOverride] at h

/-- Claim C1 (amended): `Hook::update` is a field-level overlay for every
overridable field except alias — each such field independently takes the
override's value when set and the base's value when absent — while alias is
unconditionally replaced by the override's alias (absent included). -/
theorem update_overlay_except_alias (b : Hook) (o : ConfigRemoteHook) :
    Hook.update b o =
      { b with
        name := o.name.getD b.name
        language_version := o.language_version.or b.language_version
        files := o.files.or b.files
        exclude := o.exclude.or b.exclude
        types := o.types.or b.types
        types_or := o.types_or.or b.types_or
        exclude_types := o.exclude_types.or b.exclude_types
        args := o.args.or b.args
        stages := o.stages.or b.stages
        additional_dependencies :=
          o.additional_dependencies.or b.additional_dependencies
        always_run := o.always_run.or b.always_run
        verbose := o.verbose.or b.verbose
        log_file := o.log_file.or b.log_file
        «alias» := o.«alias» } := by
  cases b
  simp only [Hook.update, isSome_ite_eq_or, ManifestHook.mk.injEq, and_true,
    true_and]
  cases o.name <;> simp [Option.getD]

/-- Claim C10: `Hook::update` leaves the hook's identifier, entry command, and
language unchanged; only the other fields can differ between the input hook
and the updated hook. -/
theorem update_preserves_id_entry_language (b : Hook) (o : ConfigRemoteHook) :
    (Hook.update b o).id = b.id ∧ (Hook.update b o).entry = b.entry ∧
      (Hook.update b o).language = b.language :=
  ⟨rfl, rfl, rfl⟩

/-- Claim C3: `Hook::fill` is idempotent — it assigns `language_version` and
`stages` only when they are currently unset, so a second fill with the same
project defaults changes nothing. -/
theorem fill_idempotent (h : Hook) (config : ConfigWire) :
    Hook.fill (Hook.fill h config) config = Hook.fill h config := by
  rcases h with ⟨id, name, entry, language, lv, files, excl, types, typesor,
    exclt, args, stages, deps, always, verb, log, aliasF⟩
  cases lv <;> cases stages <;>
    cases hdlv : config.default_language_version.bind
      (fun v => v.lookup language) <;>
    cases hds : config.default_stages <;>
      simp [Hook.fill, hdlv, hds]

/-- Looking up a key different from the inserted one is unchanged by the
replace branch of `hookMapInsert`. -/
theorem lookup_map_replace (m : List (String × ManifestHook)) (h : ManifestHook)
    (i : String) (hi : i ≠ h.id) :
    (m.map (fun p => if p.1 == h.id then (p.1, h) else p)).lookup i =
      m.lookup i := by
  induction m with
  | nil => rfl
  | cons p t ih =>
      obtain ⟨k, v⟩ := p
      simp only [List.map_cons]
      by_cases hp : k = h.id
      · have hbeq : (k == h.id) = true := beq_iff_eq.mpr hp
        have hik : (i == k) = false :=
          beq_eq_false_iff_ne.mpr (by rw [hp]; exact hi)
        simpa [hbeq, hik, List.lookup_cons] using ih
      · have hbeq : (k == h.id) = false := beq_eq_false_iff_ne.mpr hp
        cases hik : i == k
        · simpa [hbeq, hik, List.lookup_cons] using ih
        · simp [hbeq, hik, List.lookup_cons]

/-- Looking up the inserted key after the replace branch yields the new
hook, provided the key was present. -/
theorem lookup_map_replace_self (m : List (String × ManifestHook))
    (h : ManifestHook) (hmem : m.any (fun p => p.1 == h.id) = true) :
    (m.map (fun p => if p.1 == h.id then (p.1, h) else p)).lookup h.id =
      some h := by
  induction m with
  | nil => simp at hmem
  | cons p t ih =>
      obtain ⟨k, v⟩ := p
      simp only [List.map_cons]
      by_cases hp : k = h.id
      · have hbeq : (k == h.id) = true := beq_iff_eq.mpr hp
        have hik : (h.id == k) = true := beq_iff_eq.mpr hp.symm
        simp [hbeq, hik, List.lookup_cons]
      · have hbeq : (k == h.id) = false := beq_eq_false_iff_ne.mpr hp
        have hmem2 : t.any (fun p => p.1 == h.id) = true := by
          simpa [hbeq] using hmem
        have hik : (h.id == k) = false :=
          beq_eq_false_iff_ne.mpr (fun e => hp e.symm)
        simpa [hbeq, hik, List.lookup_cons] using ih hmem2

/-- A single `hookMapInsert` makes the inserted hook visible under its id and
leaves every other lookup unchanged. -/
theorem lookup_hookMapInsert (m : List (String × ManifestHook))
    (h : ManifestHook) (i : String) :
    (hookMapInsert m h).lookup i =
      if i = h.id then some h else m.lookup i := by
  unfold hookMapInsert
  by_cases hany : m.any (fun p => p.1 == h.id) = true
  · rw [if_pos hany]
    by_cases hi : i = h.id
    · rw [if_pos hi, hi, lookup_map_replace_self m h hany]
    · rw [if_neg hi, lookup_map_replace m h i hi]
  · rw [if_neg hany, List.lookup_append]
    by_cases hi : i = h.id
    · rw [if_pos hi]
      have hnone : m.lookup i = none := by
        rw [List.lookup_eq_none_iff]
        intro p hp
        have hfalse : (p.1 == h.id) = false := by
          rcases Bool.eq_false_or_eq_true (p.1 == h.id) with ht | hf
          · exact absurd (List.any_eq_true.mpr ⟨p, hp, ht⟩) hany
          · exact hf
        have hne : p.1 ≠ h.id := beq_eq_false_iff_ne.mp hfalse
        rw [hi]
        exact bne_iff_ne.mpr (fun e => hne e.symm)
      rw [hnone, Option.none_or, hi]
      simp [List.lookup_cons]
    · rw [if_neg hi]
      have hend : ([(h.id, h)] : List (String × ManifestHook)).lookup i = none := by
        simp [List.lookup_cons, beq_eq_false_iff_ne.mpr hi]
      rw [hend, Option.or_none]

/-- The keys of the map after one insertion: unchanged when the key was
present, the inserted key appended otherwise. -/
theorem keys_hookMapInsert (m : List (String × ManifestHook))
    (h : ManifestHook) :
    (hookMapInsert m h).map Prod.fst =
      if m.any (fun p => p.1 == h.id) = true then m.map Prod.fst
      else m.map Prod.fst ++ [h.id] := by
  unfold hookMapInsert
  by_cases hany : m.any (fun p => p.1 == h.id) = true
  · rw [if_pos hany, if_pos hany, List.map_map]
    have : ∀ p : String × ManifestHook,
        (Prod.fst ∘ fun p => if p.1 == h.id then (p.1, h) else p) p =
          Prod.fst p := by
      intro p
      by_cases hp : p.1 == h.id <;> simp [Function.comp, hp]
    exact List.map_congr_left fun p _ => this p
  · rw [if_neg hany, if_neg hany]
    simp

/-- A key occurs in the hook map exactly when some hook of the manifest list
carries it as identifier. -/
theorem mem_keys_buildHookMap (l : List ManifestHook) :
    ∀ x : String, x ∈ (buildHookMap l).map Prod.fst ↔ x ∈ l.map (fun h => h.id) := by
  induction l using List.reverseRecOn with
  | nil => intro x; simp [buildHookMap]
  | append_singleton t h ih =>
      intro x
      have hstep : buildHookMap (t ++ [h]) = hookMapInsert (buildHookMap t) h := by
        simp [buildHookMap]
      rw [hstep, keys_hookMapInsert]
      by_cases hany : (buildHookMap t).any (fun p => p.1 == h.id) = true
      · have hmem : h.id ∈ t.map (fun h => h.id) := by
          rw [← ih h.id]
          rcases List.any_eq_true.mp hany with ⟨p, hp, he⟩
          exact List.mem_map.mpr ⟨p, hp, (beq_iff_eq.mp he)⟩
        rw [if_pos hany]
        simp only [List.map_append, List.map_cons, List.map_nil,
          List.mem_append, List.mem_singleton, ih x]
        constructor
        · exact Or.inl
        · rintro (hx | rfl)
          · exact hx
          · exact hmem
      · rw [if_neg hany]
        simp [ih x]

/-- Entry count after one insertion. -/
theorem length_hookMapInsert (m : List (String × ManifestHook))
    (h : ManifestHook) :
    (hookMapInsert m h).length =
      if m.any (fun p => p.1 == h.id) = true then m.length
      else m.length + 1 := by
  unfold hookMapInsert
  by_cases hany : m.any (fun p => p.1 == h.id) = true <;> simp [hany]

/-- The hook map has exactly one entry per distinct hook identifier: with `N`
manifest hooks of which `M` are duplicates by id, the map has
`N - M` entries (the number of distinct ids). -/
theorem length_buildHookMap (l : List ManifestHook) :
    (buildHookMap l).length = (l.map (fun h => h.id)).toFinset.card := by
  induction l using List.reverseRecOn with
  | nil => simp [buildHookMap]
  | append_singleton t h ih =>
      have hstep : buildHookMap (t ++ [h]) = hookMapInsert (buildHookMap t) h := by
        simp [buildHookMap]
      rw [hstep, length_hookMapInsert, ih]
      have hiff : ((buildHookMap t).any (fun p => p.1 == h.id) = true) ↔
          h.id ∈ t.map (fun h => h.id) := by
        rw [← mem_keys_buildHookMap t h.id]
        constructor
        · intro ha
          rcases List.any_eq_true.mp ha with ⟨p, hp, he⟩
          exact List.mem_map.mpr ⟨p, hp, beq_iff_eq.mp he⟩
        · intro hm
          rcases List.mem_map.mp hm with ⟨p, hp, he⟩
          exact List.any_eq_true.mpr ⟨p, hp, beq_iff_eq.mpr he⟩
      have hsingle : ((List.map (fun h => h.id) [h]).toFinset :
          Finset String) = {h.id} := by simp
      by_cases hmem : h.id ∈ t.map (fun h => h.id)
      · rw [if_pos (hiff.mpr hmem), List.map_append, List.toFinset_append,
          hsingle, Finset.union_comm, ← Finset.insert_eq,
          Finset.card_insert_of_mem (List.mem_toFinset.mpr hmem)]
      · rw [if_neg (fun ha => hmem (hiff.mp ha)), List.map_append,
          List.toFinset_append, hsingle, Finset.union_comm, ← Finset.insert_eq,
          Finset.card_insert_of_not_mem
            (fun hc => hmem (List.mem_toFinset.mp hc))]

/-- `find?` returns the head of the filtered list. -/
theorem find?_eq_head?_filter {α : Type} (p : α → Bool) (l : List α) :
    l.find? p = (l.filter p).head? := by
  induction l with
  | nil => rfl
  | cons x t ih =>
      cases hx : p x
      · rw [List.find?_cons_of_neg _ (by simp [hx]),
          List.filter_cons_of_neg (by simp [hx])]
        exact ih
      · rw [List.find?_cons_of_pos _ (by simp [hx]),
          List.filter_cons_of_pos (by simp [hx])]
        rfl

/-- Lookup in the built hook map returns the LAST manifest hook carrying the
identifier (last write wins on duplicate ids). -/
theorem lookup_buildHookMap (l : List ManifestHook) (i : String) :
    (buildHookMap l).lookup i = l.reverse.find? (fun h => h.id == i) := by
  induction l using List.reverseRecOn with
  | nil => rfl
  | append_singleton t h ih =>
      have hstep : buildHookMap (t ++ [h]) = hookMapInsert (buildHookMap t) h := by
        simp [buildHookMap]
      rw [hstep, lookup_hookMapInsert, List.reverse_append]
      by_cases hi : i = h.id
      · subst hi
        simp [List.find?_cons]
      · have hfi : (h.id == i) = false :=
          beq_eq_false_iff_ne.mpr (fun e => hi e.symm)
        simp [hi, hfi, List.find?_cons, ih]

/-- A hook with a given id and otherwise empty fields, used by concrete
witnesses. -/
def simpleHook (i : String) : ManifestHook where
  id := i
  name := i
  entry := i
  language := .python
  language_version := none
  files := none
  exclude := none
  types := none
  types_or := none
  exclude_types := none
  args := none
  stages := none
  additional_dependencies := none
  always_run := none
  verbose := none
  log_file := none
  «alias» := none

/-- Claim C6: the hook map built by `Repo::remote` from `N` manifest hooks of
which `M` are duplicates by identifier has exactly `N - M` entries (one per
distinct id); on a duplicated id the last occurrence wins; `get_hook` on an
identifier whose manifest occurrences filter to a single hook returns that
hook; `get_hook` on an absent identifier returns `None`; lookups are pure
reads of the fixed map; and a Meta repo returns `None` for every id. -/
theorem remote_hook_map_spec (l : List ManifestHook)
    (path url rev : String) (i : String) :
    (buildHookMap l).length = (l.map (fun h => h.id)).toFinset.card
    ∧ Repo.get_hook (.remote ⟨path, url, rev, buildHookMap l⟩) i =
        l.reverse.find? (fun h => h.id == i)
    ∧ (∀ h : ManifestHook, l.filter (fun x => x.id == i) = [h] →
        Repo.get_hook (.remote ⟨path, url, rev, buildHookMap l⟩) i = some h)
    ∧ ((∀ h ∈ l, h.id ≠ i) →
        Repo.get_hook (.remote ⟨path, url, rev, buildHookMap l⟩) i = none)
    ∧ Repo.get_hook .meta i = none := by
  refine ⟨length_buildHookMap l, lookup_buildHookMap l i, ?_, ?_, rfl⟩
  · intro h hfilter
    show (buildHookMap l).lookup i = some h
    rw [lookup_buildHookMap, find?_eq_head?_filter, List.filter_reverse,
      hfilter]
    rfl
  · intro habsent
    show (buildHookMap l).lookup i = none
    rw [lookup_buildHookMap, find?_eq_head?_filter, List.filter_reverse]
    have : l.filter (fun h => h.id == i) = [] := by
      rw [List.filter_eq_nil_iff]
      intro h hh
      simp [habsent h hh]
    rw [this]
    rfl

/-- Witness for C6: three manifest hooks, two sharing the id "a" — the map has
2 = 3 - 1 entries, lookup of "a" returns the later of the two duplicates,
and lookup of the absent id "c" returns nothing. -/
theorem remote_hook_map_spec_witness :
    (buildHookMap [simpleHook "a", simpleHook "b",
      { simpleHook "a" with name := "second" }]).length = 2
    ∧ Repo.get_hook
        (.remote ⟨"p", "u", "v", buildHookMap [simpleHook "a", simpleHook "b",
          { simpleHook "a" with name := "second" }]⟩) "a" =
        some { simpleHook "a" with name := "second" }
    ∧ Repo.get_hook
        (.remote ⟨"p", "u", "v", buildHookMap [simpleHook "a", simpleHook "b",
          { simpleHook "a" with name := "second" }]⟩) "b" =
        some (simpleHook "b")
    ∧ Repo.get_hook
        (.remote ⟨"p", "u", "v", buildHookMap [simpleHook "a", simpleHook "b",
          { simpleHook "a" with name := "second" }]⟩) "c" = none := by
  have ha := remote_hook_map_spec [simpleHook "a", simpleHook "b",
    { simpleHook "a" with name := "second" }] "p" "u" "v" "a"
  have hb := remote_hook_map_spec [simpleHook "a", simpleHook "b",
    { simpleHook "a" with name := "second" }] "p" "u" "v" "b"
  have hc := remote_hook_map_spec [simpleHook "a", simpleHook "b",
    { simpleHook "a" with name := "second" }] "p" "u" "v" "c"
  refine ⟨ha.1.trans (by decide), ha.2.1.trans (by decide), ?_, ?_⟩
  · exact hb.2.2.1 (simpleHook "b") (by decide)
  · exact hc.2.2.2.1 (by decide)

/-- Claim C8 (counterexample): `Repo::meta()` does not return a value at all —
its body is `todo!()`, which panics, so the operation is not total. -/
theorem meta_impl_diverges : Repo.metaImpl = none := rfl

/-- Claim C8 (amended): `Repo::meta()` is unimplemented — it panics (modelled
as returning no result) instead of returning the built-in Meta variant; the
Meta variant itself does carry an empty hook set: `get_hook` on a Meta repo
returns `None` for every identifier. -/
theorem meta_impl_unimplemented :
    Repo.metaImpl = none ∧ ∀ i : String, Repo.get_hook .meta i = none :=
  ⟨rfl, fun _ => rfl⟩

/-- `std::process::Output` as used by `DockerImage::run`: stdout and stderr
byte streams and the exit status.  `status.code()` is `None` when the process
was killed by a signal; exit codes are i32 bit patterns modelled as naturals
below 2^32 (bitwise-or never leaves that range, so no reduction is needed). -/
structure ProcOutput where
  stdout : List Nat
  stderr : List Nat
  status : Option Nat
  deriving DecidableEq, Repr

/-- The tail of the per-batch closure of `DockerImage::run` (lines 49-52):
`output.stdout.extend(output.stderr)` and
`output.status.code().unwrap_or(1)` — one batch's result is (exit code
defaulting to 1, stdout bytes immediately followed by stderr bytes). -/
def batchResult (output : ProcOutput) : Nat × List Nat :=
  (output.status.getD 1, output.stdout ++ output.stderr)

/-- The result-collection loop of `DockerImage::run` (lines 57-64):
`combined_status |= code; combined_output.extend(output)` over the batch
results in the order they were produced. -/
def collectResults (results : List (Nat × List Nat)) : Nat × List Nat :=
  results.foldl (fun acc r => (acc.1 ||| r.1, acc.2 ++ r.2)) (0, [])

/-- A child process command under construction; `Cmd.args` appends to the
argument vector (`std::process::Command::args`). -/
structure Cmd where
  argv : List String
  deriving DecidableEq, Repr

/-- `Command::args`: append arguments. -/
def Cmd.args (c : Cmd) (xs : List String) : Cmd := ⟨c.argv ++ xs⟩

/-- `DockerImage::supports_dependency` (src/languages/docker_image.rs lines
15-17): the container-image toolchain does not support
`additional_dependencies`. -/
def DockerImage.supports_dependency : Bool := false

/-- `DockerImage::run` (src/languages/docker_image.rs lines 31-67), with the
collaborators that are not part of src/ passed as parameters: `split` is
`shlex::split` (external crate), `dockerCmd` is
`Docker::dockerCmd()` (src/languages/docker.rs, not under src/), `exec`
is the operating system's execution of one fully built command returning that
batch's (exit code, stdout-then-stderr bytes) as the closure computes them,
and `batches` is the batch decomposition produced by `run_by_batch`
(src/run.rs, not under src/).  The entry string is tokenized first; on
tokenization failure, run returns the configuration error
"Failed to parse entry" and no batch command is ever built or executed.  On
success each batch's command is the container-invocation command followed by
the entry tokens, the hook's configured extra arguments, and the batch of
filenames, and the per-batch results are combined by `collectResults`. -/
def DockerImage.run (split : String → Option (List String))
    (dockerCmd : Cmd) (exec : Cmd → Nat × List Nat) (hook : Hook)
    (batches : List (List String)) : Except String (Nat × List Nat) :=
  match split hook.entry with
  | none => Except.error "Failed to parse entry"
  | some cmds =>
      let results := batches.map (fun batch =>
        exec (((dockerCmd.args cmds).args (hook.args.getD [])).args batch))
      Except.ok (collectResults results)

/-- A nonzero left operand keeps a bitwise-or nonzero. -/
theorem lor_ne_zero_left (x y : Nat) (hx : x ≠ 0) : x ||| y ≠ 0 := by
  intro h0
  obtain ⟨i, hi⟩ := Nat.ne_zero_implies_bit_true hx
  have := congrArg (fun z => Nat.testBit z i) h0
  simp [Nat.testBit_or, hi] at this

/-- A nonzero right operand keeps a bitwise-or nonzero. -/
theorem lor_ne_zero_right (x y : Nat) (hy : y ≠ 0) : x ||| y ≠ 0 := by
  rw [Nat.lor_comm]
  exact lor_ne_zero_left y x hy

/-- The collection loop, started from an arbitrary accumulator. -/
theorem collect_loop_eq (results : List (Nat × List Nat)) (a : Nat)
    (b : List Nat) :
    results.foldl (fun acc r => (acc.1 ||| r.1, acc.2 ++ r.2)) (a, b) =
      (a ||| results.foldr (fun r acc => r.1 ||| acc) 0,
        b ++ (results.map Prod.snd).flatten) := by
  induction results generalizing a b with
  | nil => simp
  | cons r t ih =>
      simp only [List.foldl_cons, List.foldr_cons, List.map_cons,
        List.flatten_cons, ih, Nat.lor_assoc, List.append_assoc]

/-- The bitwise-or fold is nonzero as soon as one element is nonzero. -/
theorem foldr_lor_ne_zero (l : List Nat) (x : Nat) (hx : x ∈ l)
    (hne : x ≠ 0) : l.foldr (fun c acc => c ||| acc) 0 ≠ 0 := by
  induction l with
  | nil => cases hx
  | cons c t ih =>
      rcases List.mem_cons.mp hx with rfl | hxt
      · exact lor_ne_zero_left _ _ hne
      · exact lor_ne_zero_right _ _ (ih hxt)

/-- Claim C2: with each batch producing a process output, the combined result
of `DockerImage::run`'s collection loop is the bitwise-or of all batch exit
codes paired with the concatenation, over batches in the order their results
were produced, of that batch's stdout bytes immediately followed by its
stderr bytes; hence any batch with a nonzero exit code makes the combined
exit code nonzero. -/
theorem docker_combined_result (outputs : List ProcOutput) :
    collectResults (outputs.map batchResult) =
      ((outputs.map (fun o => o.status.getD 1)).foldr (fun c acc => c ||| acc) 0,
        (outputs.map (fun o => o.stdout ++ o.stderr)).flatten)
    ∧ ∀ o ∈ outputs, o.status.getD 1 ≠ 0 →
        (collectResults (outputs.map batchResult)).1 ≠ 0 := by
  have hmain : collectResults (outputs.map batchResult) =
      ((outputs.map (fun o => o.status.getD 1)).foldr (fun c acc => c ||| acc) 0,
        (outputs.map (fun o => o.stdout ++ o.stderr)).flatten) := by
    unfold collectResults
    rw [collect_loop_eq]
    simp only [Nat.zero_or, List.nil_append, List.map_map, Prod.mk.injEq]
    constructor
    · have hfst : ∀ t : List ProcOutput,
          (t.map batchResult).foldr (fun r acc => r.1 ||| acc) 0 =
            (t.map (fun o => o.status.getD 1)).foldr (fun c acc => c ||| acc) 0 := by
        intro t
        induction t with
        | nil => rfl
        | cons o t2 ih =>
            simp only [List.map_cons, List.foldr_cons, ih]
            rfl
      exact hfst outputs
    · rfl
  refine ⟨hmain, ?_⟩
  intro o ho hne
  rw [hmain]
  exact foldr_lor_ne_zero _ (o.status.getD 1)
    (List.mem_map.mpr ⟨o, ho, rfl⟩) hne

/-- Witness for C2: three batches with exit codes 0, 1, 0 — the combined exit
code is 1 (nonzero) and the combined output is the three stdout+stderr pairs
concatenated in order. -/
theorem docker_combined_result_witness :
    collectResults ([⟨[1], [2], some 0⟩, ⟨[3], [4], some 1⟩,
        ⟨[5], [6], some 0⟩].map batchResult) = (1, [1, 2, 3, 4, 5, 6])
    ∧ (collectResults ([⟨[1], [2], some 0⟩, ⟨[3], [4], some 1⟩,
        ⟨[5], [6], some 0⟩].map batchResult)).1 ≠ 0 := by
  have h := docker_combined_result
    [⟨[1], [2], some 0⟩, ⟨[3], [4], some 1⟩, ⟨[5], [6], some 0⟩]
  exact ⟨h.1.trans (by decide),
    h.2 ⟨[3], [4], some 1⟩ (by decide) (by decide)⟩

/-- Claim C9: `DockerImage::run` tokenizes the hook's entry string before any
process is launched — if tokenization fails, run returns the configuration
error "Failed to parse entry" whatever the execution function would do (no
batch command is built); if it succeeds, every batch's command line is the
container-invocation command followed by the entry tokens, then the hook's
configured extra arguments, then the batch of filenames. -/
theorem docker_run_tokenization (split : String → Option (List String))
    (dockerCmd : Cmd) (hook : Hook) (batches : List (List String)) :
    (split hook.entry = none →
      ∀ exec : Cmd → Nat × List Nat,
        DockerImage.run split dockerCmd exec hook batches =
          Except.error "Failed to parse entry")
    ∧ ∀ cmds : List String, split hook.entry = some cmds →
        ∀ exec : Cmd → Nat × List Nat,
          DockerImage.run split dockerCmd exec hook batches =
            Except.ok (collectResults (batches.map (fun batch =>
              exec ⟨dockerCmd.argv ++ cmds ++ hook.args.getD [] ++
                batch⟩))) := by
  constructor
  · intro hnone exec
    unfold DockerImage.run
    rw [hnone]
  · intro cmds hsome exec
    unfold DockerImage.run
    rw [hsome]
    simp [Cmd.args, List.append_assoc]

/-- Witness for C9: with a tokenizer rejecting the entry, run fails with the
configuration error for every execution function; with a tokenizer returning
one token, run executes the fully prefixed command on the one batch. -/
theorem docker_run_tokenization_witness :
    DockerImage.run (fun _ => none) ⟨["docker", "run"]⟩ (fun _ => (0, []))
        (simpleHook "h") [["f"]] = Except.error "Failed to parse entry"
    ∧ DockerImage.run (fun e => some [e]) ⟨["docker", "run"]⟩
        (fun c => (c.argv.length, [])) (simpleHook "h") [["f"]] =
        Except.ok (4, []) := by
  constructor
  · exact (docker_run_tokenization (fun _ => none) ⟨["docker", "run"]⟩
      (simpleHook "h") [["f"]]).1 rfl (fun _ => (0, []))
  · have h := (docker_run_tokenization (fun e => some [e]) ⟨["docker", "run"]⟩
      (simpleHook "h") [["f"]]).2 [(simpleHook "h").entry] rfl
      (fun c => (c.argv.length, []))
    exact h.trans (by rfl)

/-- `Error` (src/hook.rs lines 16-26); the wrapped causes are reduced to
message strings. -/
inductive Error where
  | invalidUrl (msg : String)
  | readConfig (msg : String)
  | initRepo (msg : String)
  | hookNotFound (hook : String) (repo : String)
  deriving DecidableEq, Repr

/-- The per-remote-repo hook loop of `Project::hooks` (src/hook.rs lines
145-163): for each configured hook override, look up the manifest hook by
identifier — failing with `HookNotFound` naming the configured id and the
repo's Display rendering when absent — then build the effective hook by
`Hook::from` + `update` + `fill`. -/
def assembleRemote (config : ConfigWire) (repo : Repo) :
    List ConfigRemoteHook → Except Error (List Hook)
  | [] => Except.ok []
  | hc :: rest =>
      match Repo.get_hook repo hc.id with
      | none => Except.error (Error.hookNotFound hc.id (Repo.display repo))
      | some manifest_hook =>
          match assembleRemote config repo rest with
          | Except.error e => Except.error e
          | Except.ok hs =>
              Except.ok (Hook.fill (Hook.update manifest_hook hc) config :: hs)

/-- The secondary-preparation requests `Project::hooks` enqueues (src/hook.rs
lines 158-160 and 170-172): one `store.prepare_repo(repo_config, Some(deps))`
per produced hook that declares additional dependencies. -/
def depRequests (rc : ConfigRepo) (hs : List Hook) :
    List (ConfigRepo × List String) :=
  hs.filterMap (fun h => h.additional_dependencies.map (fun d => (rc, d)))

/-- The main repo loop of `Project::hooks` (src/hook.rs lines 134-179),
sequentialized in configuration order: the source drives repo preparation
through a `FuturesUnordered` pool so the processing order is completion
order, but the claims proved below do not depend on that order.  `prep` is
`Store::prepare_repo` (src/store.rs, not under src/), passed as a parameter.
Returns the accumulated hooks together with the enqueued secondary
requests. -/
def gatherRepos (prep : ConfigRepo → Option (List String) → Except Error Repo)
    (config : ConfigWire) :
    List ConfigRepo → Except Error (List Hook × List (ConfigRepo × List String))
  | [] => Except.ok ([], [])
  | rc :: rest =>
      match prep rc none with
      | Except.error e => Except.error e
      | Except.ok repo =>
          match (match rc with
            | ConfigRepo.remote r => assembleRemote config repo r.hooks
            | ConfigRepo.local' r =>
                Except.ok (r.hooks.map (fun h => Hook.fill h config))
            | ConfigRepo.meta => Except.ok []) with
          | Except.error e => Except.error e
          | Except.ok hs =>
              match gatherRepos prep config rest with
              | Except.error e => Except.error e
              | Except.ok (hs2, tasks2) =>
                  Except.ok (hs ++ hs2, depRequests rc hs ++ tasks2)

/-- The final await of the secondary preparations (src/hook.rs line 182,
`hook_tasks.collect().await?`): every enqueued request must succeed. -/
def checkTasks (prep : ConfigRepo → Option (List String) → Except Error Repo) :
    List (ConfigRepo × List String) → Except Error Unit
  | [] => Except.ok ()
  | (rc, deps) :: rest =>
      match prep rc (some deps) with
      | Except.error e => Except.error e
      | Except.ok _ => checkTasks prep rest

/-- `Project::hooks` (src/hook.rs lines 129-185): prepare every configured
repo, assemble the effective hooks, await the secondary preparations, and
return the hook list — or the first error. -/
def projectHooks (prep : ConfigRepo → Option (List String) → Except Error Repo)
    (config : ConfigWire) : Except Error (List Hook) :=
  match gatherRepos prep config config.repos with
  | Except.error e => Except.error e
  | Except.ok (hs, tasks) =>
      match checkTasks prep tasks with
      | Except.error e => Except.error e
      | Except.ok _ => Except.ok hs

/-- When every configured hook id resolves, the remote assembly loop
succeeds. -/
theorem assembleRemote_ok (config : ConfigWire) (repo : Repo)
    (hcs : List ConfigRemoteHook)
    (hall : ∀ hc ∈ hcs, ∃ mh, Repo.get_hook repo hc.id = some mh) :
    ∃ hs, assembleRemote config repo hcs = Except.ok hs := by
  induction hcs with
  | nil => exact ⟨[], rfl⟩
  | cons hc rest ih =>
      obtain ⟨mh, hmh⟩ := hall hc (List.mem_cons_self hc rest)
      obtain ⟨hs, hhs⟩ := ih (fun x hx => hall x (List.mem_cons_of_mem hc hx))
      refine ⟨Hook.fill (Hook.update mh hc) config :: hs, ?_⟩
      simp only [assembleRemote, hmh, hhs]

/-- When some configured hook id is absent from the repo's map, the remote
assembly loop fails with `HookNotFound` naming a configured id and the repo's
rendering. -/
theorem assembleRemote_missing (config : ConfigWire) (repo : Repo)
    (hcs : List ConfigRemoteHook)
    (hmiss : ∃ hc ∈ hcs, Repo.get_hook repo hc.id = none) :
    ∃ hc ∈ hcs, assembleRemote config repo hcs =
      Except.error (Error.hookNotFound hc.id (Repo.display repo)) := by
  induction hcs with
  | nil => obtain ⟨hc, hmem, _⟩ := hmiss; cases hmem
  | cons hc rest ih =>
      cases hl : Repo.get_hook repo hc.id with
      | none =>
          exact ⟨hc, List.mem_cons_self hc rest, by
            simp only [assembleRemote, hl]⟩
      | some mh =>
          obtain ⟨hc2, hmem2, hl2⟩ := hmiss
          rcases List.mem_cons.mp hmem2 with rfl | hmem2t
          · rw [hl] at hl2; cases hl2
          · obtain ⟨hc3, hmem3, herr⟩ := ih ⟨hc2, hmem2t, hl2⟩
            exact ⟨hc3, List.mem_cons_of_mem hc hmem3, by
              simp only [assembleRemote, hl, herr]⟩

/-- Claim C4 (pipeline part, proved on the sequentialized loop): if every
repo preparation succeeds and some configured remote repo references a hook
id absent from its prepared repo's manifest map, `Project::hooks` fails with
a `HookNotFound` error carrying that configured hook's identifier and the
repo's Display rendering; and that rendering is `url@revision` for a remote
repo, `"local"` for a local repo, and `"meta"` for a meta repo. -/
theorem project_hooks_hook_not_found
    (prep : ConfigRepo → Option (List String) → Except Error Repo)
    (config : ConfigWire)
    (hprep : ∀ rc ∈ config.repos, ∃ repo, prep rc none = Except.ok repo)
    (hmiss : ∃ rc ∈ config.repos, ∃ rr repo, rc = ConfigRepo.remote rr ∧
      prep rc none = Except.ok repo ∧
      ∃ hc ∈ rr.hooks, Repo.get_hook repo hc.id = none) :
    (∃ rc ∈ config.repos, ∃ rr repo, rc = ConfigRepo.remote rr ∧
      prep rc none = Except.ok repo ∧ ∃ hc ∈ rr.hooks,
        projectHooks prep config =
          Except.error (Error.hookNotFound hc.id (Repo.display repo)))
    ∧ (∀ r : RemoteRepo, Repo.display (.remote r) = r.url ++ "@" ++ r.rev)
    ∧ (∀ r : LocalRepo, Repo.display (.local' r) = "local")
    ∧ Repo.display .meta = "meta" := by
  refine ⟨?_, fun _ => rfl, fun _ => rfl, rfl⟩
  have main : ∀ rs : List ConfigRepo,
      (∀ rc ∈ rs, ∃ repo, prep rc none = Except.ok repo) →
      (∃ rc ∈ rs, ∃ rr repo, rc = ConfigRepo.remote rr ∧
        prep rc none = Except.ok repo ∧
        ∃ hc ∈ rr.hooks, Repo.get_hook repo hc.id = none) →
      ∃ rc ∈ rs, ∃ rr repo, rc = ConfigRepo.remote rr ∧
        prep rc none = Except.ok repo ∧ ∃ hc ∈ rr.hooks,
          gatherRepos prep config rs =
            Except.error (Error.hookNotFound hc.id (Repo.display repo)) := by
    intro rs
    induction rs with
    | nil =>
        rintro _ ⟨rc, hmem, _⟩
        cases hmem
    | cons rc0 rest ih =>
        rintro hp hm
        obtain ⟨repo0, hrepo0⟩ := hp rc0 (List.mem_cons_self rc0 rest)
        cases rc0 with
        | remote rr0 =>
            by_cases hmiss0 : ∃ hc ∈ rr0.hooks, Repo.get_hook repo0 hc.id = none
            · obtain ⟨hc, hmem, herr⟩ :=
                assembleRemote_missing config repo0 rr0.hooks hmiss0
              refine ⟨ConfigRepo.remote rr0, List.mem_cons_self _ _,
                rr0, repo0, rfl, hrepo0, hc, hmem, ?_⟩
              simp only [gatherRepos, hrepo0, herr]
            · have hall : ∀ hc ∈ rr0.hooks, ∃ mh,
                  Repo.get_hook repo0 hc.id = some mh := by
                intro hc hmem
                cases hl : Repo.get_hook repo0 hc.id with
                | none => exact absurd ⟨hc, hmem, hl⟩ hmiss0
                | some mh => exact ⟨mh, rfl⟩
              obtain ⟨hs0, hhs0⟩ := assembleRemote_ok config repo0 rr0.hooks hall
              have hmrest : ∃ rc ∈ rest, ∃ rr repo, rc = ConfigRepo.remote rr ∧
                  prep rc none = Except.ok repo ∧
                  ∃ hc ∈ rr.hooks, Repo.get_hook repo hc.id = none := by
                obtain ⟨rc, hmem, rr, repo, hrc, hpr, hc, hcm, hcl⟩ := hm
                rcases List.mem_cons.mp hmem with rfl | hmemt
                · cases hrc
                  rw [hrepo0] at hpr
                  cases hpr
                  exact absurd ⟨hc, hcm, hcl⟩ hmiss0
                · exact ⟨rc, hmemt, rr, repo, hrc, hpr, hc, hcm, hcl⟩
              obtain ⟨rc, hmem, rr, repo, hrc, hpr, hc, hcm, herr⟩ :=
                ih (fun x hx => hp x (List.mem_cons_of_mem _ hx)) hmrest
              refine ⟨rc, List.mem_cons_of_mem _ hmem, rr, repo, hrc, hpr,
                hc, hcm, ?_⟩
              simp only [gatherRepos, hrepo0, hhs0, herr]
        | local' lr0 =>
            have hmrest : ∃ rc ∈ rest, ∃ rr repo, rc = ConfigRepo.remote rr ∧
                prep rc none = Except.ok repo ∧
                ∃ hc ∈ rr.hooks, Repo.get_hook repo hc.id = none := by
              obtain ⟨rc, hmem, rr, repo, hrc, hpr, hc, hcm, hcl⟩ := hm
              rcases List.mem_cons.mp hmem with rfl | hmemt
              · cases hrc
              · exact ⟨rc, hmemt, rr, repo, hrc, hpr, hc, hcm, hcl⟩
            obtain ⟨rc, hmem, rr, repo, hrc, hpr, hc, hcm, herr⟩ :=
              ih (fun x hx => hp x (List.mem_cons_of_mem _ hx)) hmrest
            refine ⟨rc, List.mem_cons_of_mem _ hmem, rr, repo, hrc, hpr,
              hc, hcm, ?_⟩
            simp only [gatherRepos, hrepo0, herr]
        | meta =>
            have hmrest : ∃ rc ∈ rest, ∃ rr repo, rc = ConfigRepo.remote rr ∧
                prep rc none = Except.ok repo ∧
                ∃ hc ∈ rr.hooks, Repo.get_hook repo hc.id = none := by
              obtain ⟨rc, hmem, rr, repo, hrc, hpr, hc, hcm, hcl⟩ := hm
              rcases List.mem_cons.mp hmem with rfl | hmemt
              · cases hrc
              · exact ⟨rc, hmemt, rr, repo, hrc, hpr, hc, hcm, hcl⟩
            obtain ⟨rc, hmem, rr, repo, hrc, hpr, hc, hcm, herr⟩ :=
              ih (fun x hx => hp x (List.mem_cons_of_mem _ hx)) hmrest
            refine ⟨rc, List.mem_cons_of_mem _ hmem, rr, repo, hrc, hpr,
              hc, hcm, ?_⟩
            simp only [gatherRepos, hrepo0, herr]
  obtain ⟨rc, hmem, rr, repo, hrc, hpr, hc, hcm, herr⟩ :=
    main config.repos hprep hmiss
  refine ⟨rc, hmem, rr, repo, hrc, hpr, hc, hcm, ?_⟩
  simp only [projectHooks, herr]

/-- A project-level override that sets nothing and refers to the given
hook id. -/
def overrideWithId (i : String) : ConfigRemoteHook where
  id := i
  name := none
  language_version := none
  files := none
  exclude := none
  types := none
  types_or := none
  exclude_types := none
  args := none
  stages := none
  additional_dependencies := none
  always_run := none
  verbose := none
  log_file := none
  «alias» := none

/-- A prepared remote repo whose manifest declares only the hook "lint". -/
def demoRepo : Repo :=
  .remote ⟨"p", "https://example.com/hooks", "v1",
    buildHookMap [simpleHook "lint"]⟩

/-- A store preparation function that always succeeds with `demoRepo`. -/
def demoPrep : ConfigRepo → Option (List String) → Except Error Repo :=
  fun _ _ => Except.ok demoRepo

/-- A project configuration referencing the hook id "missing" against the
demo repo. -/
def missConfig : ConfigWire where
  repos := [ConfigRepo.remote
    ⟨"https://example.com/hooks", "v1", [overrideWithId "missing"]⟩]
  default_language_version := none
  default_stages := none

/-- Witness for C4: a configuration referencing "missing" against a manifest
declaring only "lint" makes the pipeline fail with `HookNotFound` carrying
the configured id and the repo's `url@revision` rendering. -/
theorem project_hooks_hook_not_found_witness :
    ∃ rc ∈ missConfig.repos, ∃ rr repo, rc = ConfigRepo.remote rr ∧
      demoPrep rc none = Except.ok repo ∧ ∃ hc ∈ rr.hooks,
        projectHooks demoPrep missConfig =
          Except.error (Error.hookNotFound hc.id (Repo.display repo)) :=
  (project_hooks_hook_not_found demoPrep missConfig
    (fun _ _ => ⟨demoRepo, rfl⟩)
    ⟨ConfigRepo.remote
      ⟨"https://example.com/hooks", "v1", [overrideWithId "missing"]⟩,
      by simp [missConfig],
      ⟨"https://example.com/hooks", "v1", [overrideWithId "missing"]⟩,
      demoRepo, rfl, rfl,
      overrideWithId "missing", by simp, by rfl⟩).1

/-- A successful remote assembly implies every configured id was found. -/
theorem assembleRemote_ok_implies (config : ConfigWire) (repo : Repo)
    (hcs : List ConfigRemoteHook) :
    ∀ hs, assembleRemote config repo hcs = Except.ok hs →
      ∀ hc ∈ hcs, ∃ mh, Repo.get_hook repo hc.id = some mh := by
  induction hcs with
  | nil =>
      intro hs _ hc hmem
      cases hmem
  | cons hc0 rest ih =>
      intro hs hok hc hmem
      cases hl : Repo.get_hook repo hc0.id with
      | none =>
          simp only [assembleRemote, hl] at hok
          exact Except.noConfusion hok
      | some mh =>
          simp only [assembleRemote, hl] at hok
          cases hrest : assembleRemote config repo rest with
          | error e => rw [hrest] at hok; exact Except.noConfusion hok
          | ok hs2 =>
              rcases List.mem_cons.mp hmem with rfl | hmemt
              · exact ⟨mh, hl⟩
              · exact ih hs2 hrest hc hmemt

/-- A successful final await implies every secondary preparation
succeeded. -/
theorem checkTasks_ok_implies
    (prep : ConfigRepo → Option (List String) → Except Error Repo)
    (ts : List (ConfigRepo × List String)) :
    checkTasks prep ts = Except.ok () →
      ∀ t ∈ ts, ∃ repo, prep t.1 (some t.2) = Except.ok repo := by
  induction ts with
  | nil =>
      intro _ t hmem
      cases hmem
  | cons t0 rest ih =>
      intro hok t hmem
      obtain ⟨rc0, d0⟩ := t0
      cases hp : prep rc0 (some d0) with
      | error e =>
          simp only [checkTasks, hp] at hok
          exact Except.noConfusion hok
      | ok repo0 =>
          simp only [checkTasks, hp] at hok
          rcases List.mem_cons.mp hmem with rfl | hmemt
          · exact ⟨repo0, hp⟩
          · exact ih hok t hmemt

/-- A successful repo loop implies every repo preparation and every hook
lookup succeeded. -/
theorem gatherRepos_ok_implies
    (prep : ConfigRepo → Option (List String) → Except Error Repo)
    (config : ConfigWire) :
    ∀ (rs : List ConfigRepo) (hs : List Hook)
      (tasks : List (ConfigRepo × List String)),
      gatherRepos prep config rs = Except.ok (hs, tasks) →
        (∀ rc ∈ rs, ∃ repo, prep rc none = Except.ok repo)
        ∧ (∀ rc ∈ rs, ∀ rr, rc = ConfigRepo.remote rr → ∀ repo,
            prep rc none = Except.ok repo →
            ∀ hc ∈ rr.hooks, ∃ mh, Repo.get_hook repo hc.id = some mh) := by
  intro rs
  induction rs with
  | nil =>
      intro hs tasks _
      exact ⟨fun rc h => ((List.not_mem_nil rc) h).elim,
        fun rc h => ((List.not_mem_nil rc) h).elim⟩
  | cons rc0 rest ih =>
      intro hs tasks hok
      cases hp : prep rc0 none with
      | error e =>
          simp only [gatherRepos, hp] at hok
          exact Except.noConfusion hok
      | ok repo0 =>
          cases rc0 with
          | remote rr0 =>
              cases hasm : assembleRemote config repo0 rr0.hooks with
              | error e =>
                  simp only [gatherRepos, hp, hasm] at hok
                  exact Except.noConfusion hok
              | ok hs0 =>
                  cases hrest : gatherRepos prep config rest with
                  | error e =>
                      simp only [gatherRepos, hp, hasm, hrest] at hok
                      exact Except.noConfusion hok
                  | ok pr =>
                      obtain ⟨hs2, tasks2⟩ := pr
                      have ihres := ih hs2 tasks2 hrest
                      constructor
                      · intro rc hmem
                        rcases List.mem_cons.mp hmem with rfl | hmemt
                        · exact ⟨repo0, hp⟩
                        · exact ihres.1 rc hmemt
                      · intro rc hmem rr hrc repo hprep2 hcx hcm
                        rcases List.mem_cons.mp hmem with rfl | hmemt
                        · injection hrc with hinj
                          rw [← hinj] at hcm
                          rw [hp] at hprep2
                          injection hprep2 with hinj2
                          rw [← hinj2]
                          exact assembleRemote_ok_implies config repo0
                            rr0.hooks hs0 hasm hcx hcm
                        · exact ihres.2 rc hmemt rr hrc repo hprep2 hcx hcm
          | local' lr0 =>
              cases hrest : gatherRepos prep config rest with
              | error e =>
                  simp only [gatherRepos, hp, hrest] at hok
                  exact Except.noConfusion hok
              | ok pr =>
                  obtain ⟨hs2, tasks2⟩ := pr
                  have ihres := ih hs2 tasks2 hrest
                  constructor
                  · intro rc hmem
                    rcases List.mem_cons.mp hmem with rfl | hmemt
                    · exact ⟨repo0, hp⟩
                    · exact ihres.1 rc hmemt
                  · intro rc hmem rr hrc repo hprep2 hcx hcm
                    rcases List.mem_cons.mp hmem with rfl | hmemt
                    · exact ConfigRepo.noConfusion hrc
                    · exact ihres.2 rc hmemt rr hrc repo hprep2 hcx hcm
          | meta =>
              cases hrest : gatherRepos prep config rest with
              | error e =>
                  simp only [gatherRepos, hp, hrest] at hok
                  exact Except.noConfusion hok
              | ok pr =>
                  obtain ⟨hs2, tasks2⟩ := pr
                  have ihres := ih hs2 tasks2 hrest
                  constructor
                  · intro rc hmem
                    rcases List.mem_cons.mp hmem with rfl | hmemt
                    · exact ⟨repo0, hp⟩
                    · exact ihres.1 rc hmemt
                  · intro rc hmem rr hrc repo hprep2 hcx hcm
                    rcases List.mem_cons.mp hmem with rfl | hmemt
                    · exact ConfigRepo.noConfusion hrc
                    · exact ihres.2 rc hmemt rr hrc repo hprep2 hcx hcm

/-- Claim C5: `Project::hooks` never returns a partial hook set — a returned
hook list certifies that every repo preparation succeeded, every configured
remote hook id was found in its repo's manifest, and every secondary
(additional-dependencies) preparation succeeded; any failure of those steps
yields an error and no list at all (the return type carries either an error
or the full list, never both). -/
theorem project_hooks_all_or_nothing
    (prep : ConfigRepo → Option (List String) → Except Error Repo)
    (config : ConfigWire) (hs : List Hook)
    (hok : projectHooks prep config = Except.ok hs) :
    (∀ rc ∈ config.repos, ∃ repo, prep rc none = Except.ok repo)
    ∧ (∀ rc ∈ config.repos, ∀ rr, rc = ConfigRepo.remote rr → ∀ repo,
        prep rc none = Except.ok repo →
        ∀ hc ∈ rr.hooks, ∃ mh, Repo.get_hook repo hc.id = some mh)
    ∧ (∃ tasks, gatherRepos prep config config.repos = Except.ok (hs, tasks)
        ∧ ∀ t ∈ tasks, ∃ repo, prep t.1 (some t.2) = Except.ok repo) := by
  cases hg : gatherRepos prep config config.repos with
  | error e =>
      simp only [projectHooks, hg] at hok
      exact Except.noConfusion hok
  | ok pr =>
      obtain ⟨hs0, tasks⟩ := pr
      cases hct : checkTasks prep tasks with
      | error e =>
          simp only [projectHooks, hg, hct] at hok
          exact Except.noConfusion hok
      | ok u =>
          cases u
          simp only [projectHooks, hg, hct] at hok
          injection hok with hinj
          subst hinj
          have hg2 := gatherRepos_ok_implies prep config config.repos
            hs0 tasks hg
          exact ⟨hg2.1, hg2.2, tasks, rfl,
            checkTasks_ok_implies prep tasks hct⟩

/-- A project configuration whose single override refers to the hook "lint"
that the demo repo's manifest declares. -/
def okConfig : ConfigWire where
  repos := [ConfigRepo.remote
    ⟨"https://example.com/hooks", "v1", [overrideWithId "lint"]⟩]
  default_language_version := none
  default_stages := none

/-- Witness for C5: a fully successful assembly run, from which the theorem
certifies that the configured repo's preparation succeeded. -/
theorem project_hooks_all_or_nothing_witness :
    ∃ repo, demoPrep (ConfigRepo.remote
      ⟨"https://example.com/hooks", "v1", [overrideWithId "lint"]⟩) none =
        Except.ok repo :=
  (project_hooks_all_or_nothing demoPrep okConfig
    [Hook.fill (Hook.update (simpleHook "lint") (overrideWithId "lint"))
      okConfig]
    (by rfl)).1
    (ConfigRepo.remote
      ⟨"https://example.com/hooks", "v1", [overrideWithId "lint"]⟩)
    (by simp [okConfig])

/-- The distinct configuration/capability-mismatch error. -/
inductive CapabilityError where
  | dependencyNotSupported (hook : String)
  deriving DecidableEq, Repr

/-- Modelled from the spec: the caller-side capability check for
`additional_dependencies` is not under src/ (only `supports_dependency`'s
declaration and the DockerImage implementation are).  Per the spec, "a hook
declaring extra dependencies under this toolchain [whose
supports_dependency() is false] is a configuration error the caller must
surface, not silently ignore": the check returns a distinct
capability-mismatch error naming the hook exactly when the hook declares
additional dependencies and the toolchain does not support them. -/
def checkDependencySupport (supports : Bool) (hook : Hook) :
    Except CapabilityError Unit :=
  if hook.additional_dependencies.isSome = true ∧ supports = false then
    Except.error (CapabilityError.dependencyNotSupported hook.id)
  else
    Except.ok ()

/-- Claim C7: the container-image toolchain reports
`supports_dependency() == false`, and a hook declaring additional
dependencies under such a toolchain is surfaced as the distinct
capability-mismatch error naming the hook, never passed silently. -/
theorem docker_image_dependency_mismatch (hook : Hook) (deps : List String)
    (hdeps : hook.additional_dependencies = some deps) :
    DockerImage.supports_dependency = false
    ∧ checkDependencySupport DockerImage.supports_dependency hook =
        Except.error (CapabilityError.dependencyNotSupported hook.id) := by
  refine ⟨rfl, ?_⟩
  unfold checkDependencySupport
  rw [if_pos ⟨by simp [hdeps], rfl⟩]

/-- A containerized hook declaring one additional dependency. -/
def depsHook : Hook :=
  { simpleHook "img" with
    language := Language.dockerImage
    additional_dependencies := some ["pkg==2"] }

/-- Witness for C7: the hook "img" with `additional_dependencies ==
["pkg==2"]` under the container-image toolchain yields the distinct
capability-mismatch error. -/
theorem docker_image_dependency_mismatch_witness :
    DockerImage.supports_dependency = false
    ∧ checkDependencySupport DockerImage.supports_dependency depsHook =
        Except.error (CapabilityError.dependencyNotSupported "img") :=
  docker_image_dependency_mismatch depsHook ["pkg==2"] rfl

end Precommit
